import Mathlib

/-!
# Verification of the `set` package (sets as lists of interface values)

This file embeds the Go package `set` (files `set.go`, `setm.go`) in Lean 4
and proves properties of the embedded operations.

The package defines an interface `Element` with one method `Equal`, and two
set types `Set` and `SetM`, both defined as `[]Element`.  We model the open
world of element values as a closed inductive type: a base element carrying a
`Nat` payload (whose user-supplied `Equal` implementation is abstracted as a
relation `E : Nat → Nat → Bool`), a value of dynamic type `Set`, a value of
dynamic type `SetM`, and the `nil` interface value.  Slices are modelled as
lists (value semantics); where claims concern aliasing of slice backing
arrays, a separate explicit-heap model of slices appears further below.
-/

/-- The closed universe of element values.  `base n` is a non-set element
whose user-written `Equal` method is modelled by a relation on payloads;
`set l` and `setM l` are values of the two distinct set types (which share
the representation `[]Element` but are distinct dynamic types in Go);
`null` is the nil interface value. -/
inductive Element : Type where
  | base : Nat → Element
  | set : List Element → Element
  | setM : List Element → Element
  | null : Element

instance : Inhabited Element := ⟨Element.null⟩

mutual

/-- `Element.Equal E a b` models the Go call `a.Equal(b)` where `E` gives the
user-supplied `Equal` of base elements.  For a `Set` receiver this is
`Set.Equal` from `set.go`: a type assertion on the argument, a length
comparison, and a scan checking each receiver element is in the argument.
For a `SetM` receiver this is `SetM.Equal` from `setm.go`: a type assertion,
a length comparison, and `s.Contains(t...)` which scans each *argument*
element for membership in the receiver.  A base element's `Equal` returns
false on anything that is not a base element (the conforming-implementation
pattern of the package's tests). -/
def Element.Equal (E : Nat → Nat → Bool) : Element → Element → Bool
  | .base a, .base b => E a b
  | .base _, _ => false
  | .set s, .set t => (s.length == t.length) && Set.subsetScan E s t
  | .set _, _ => false
  | .setM s, .setM t => (s.length == t.length) && SetM.Contains E s t
  | .setM _, _ => false
  | .null, _ => false
termination_by a b => sizeOf a + sizeOf b
decreasing_by all_goals (simp_wf; try omega)

/-- The loop body of `Set.Equal` in `set.go`: `for _, se := range s { if
!t.HasElement(se) { return false } }; return true`. -/
def Set.subsetScan (E : Nat → Nat → Bool) : List Element → List Element → Bool
  | [], _ => true
  | se :: rest, t => Set.HasElement E t se && Set.subsetScan E rest t
termination_by s t => sizeOf s + sizeOf t
decreasing_by all_goals (simp_wf; try omega)

/-- `Set.HasElement` from `set.go`: linear scan, true iff `e.Equal(ex)` for
some existing element `ex`. -/
def Set.HasElement (E : Nat → Nat → Bool) (s : List Element) (e : Element) : Bool :=
  match s with
  | [] => false
  | ex :: rest => Element.Equal E e ex || Set.HasElement E rest e
termination_by sizeOf s + sizeOf e
decreasing_by all_goals (simp_wf; try omega)

/-- `SetM.Contains` from `setm.go`: true iff every one of the given elements
is in the set. -/
def SetM.Contains (E : Nat → Nat → Bool) (s : List Element) (es : List Element) : Bool :=
  match es with
  | [] => true
  | e :: rest => SetM.HasElement E s e && SetM.Contains E s rest
termination_by sizeOf s + sizeOf es
decreasing_by all_goals (simp_wf; try omega)

/-- `SetM.HasElement` from `setm.go` (same code as `Set.HasElement`). -/
def SetM.HasElement (E : Nat → Nat → Bool) (s : List Element) (e : Element) : Bool :=
  match s with
  | [] => false
  | ex :: rest => Element.Equal E e ex || SetM.HasElement E rest e
termination_by sizeOf s + sizeOf e
decreasing_by all_goals (simp_wf; try omega)

end

/-- `Set.Equal` from `set.go` as a function of the receiver's slice. -/
def Set.Equal (E : Nat → Nat → Bool) (s : List Element) (e : Element) : Bool :=
  Element.Equal E (.set s) e

/-- `SetM.Equal` from `setm.go` as a function of the receiver's slice. -/
def SetM.Equal (E : Nat → Nat → Bool) (s : List Element) (e : Element) : Bool :=
  Element.Equal E (.setM s) e

/-- `Reflexive` from `set.go`: `e.Equal(e)`. -/
def set.Reflexive (E : Nat → Nat → Bool) (e : Element) : Bool :=
  Element.Equal E e e

/-- `Symetric` from `set.go`: `a.Equal(b) == b.Equal(a)`. -/
def set.Symetric (E : Nat → Nat → Bool) (a b : Element) : Bool :=
  Element.Equal E a b == Element.Equal E b a

/-- `Transitive` from `set.go`. -/
def set.Transitive (E : Nat → Nat → Bool) (a b c : Element) : Bool :=
  if Element.Equal E a b && Element.Equal E b c then Element.Equal E a c else true

/-- `SetM.Cardinality` from `setm.go`: `len(s)`. -/
def SetM.Cardinality (s : List Element) : Nat := s.length

/-- `SetM.Copy` from `setm.go`: `append(SetM{}, s...)`.  With value
semantics for slices the copy has the same elements. -/
def SetM.Copy (s : List Element) : List Element := s

/-- `SetM.Add` from `setm.go`.  The pointer receiver is passed and returned
explicitly; the boolean reports whether the element was added.  (The fresh
backing-array allocation performed by the source is invisible under value
semantics; it is modelled explicitly in the heap model below.) -/
def SetM.Add (E : Nat → Nat → Bool) (p : List Element) (e : Element) :
    List Element × Bool :=
  if SetM.HasElement E p e then (p, false) else (p ++ [e], true)

/-- `SetM.Remove` from `setm.go`: scan for the first element `ex` with
`e.Equal(ex)`; if found, swap it with the last element and truncate. -/
def SetM.Remove (E : Nat → Nat → Bool) (r : List Element) (e : Element) :
    List Element × Bool :=
  match r.findIdx? (fun ex => Element.Equal E e ex) with
  | none => (r, false)
  | some i =>
    let last := r.length - 1
    (((r.set i (r.getD last default)).set last (r.getD i default)).dropLast, true)

/-- `SetM.Difference` from `setm.go`: start empty, append elements of `s`
not in `t`. -/
def SetM.Difference (E : Nat → Nat → Bool) (s t : List Element) : List Element :=
  s.filter (fun e => !(SetM.HasElement E t e))

/-- `SetM.Difference2` from `setm.go`: start with a copy of `s`, remove the
elements of `c`. -/
def SetM.Difference2 (E : Nat → Nat → Bool) (s c : List Element) : List Element :=
  c.foldl (fun d e => (SetM.Remove E d e).1) (SetM.Copy s)

/-- `SetM.Intersect` from `setm.go`: start empty, append elements of `s`
found in `t`. -/
def SetM.Intersect (E : Nat → Nat → Bool) (s t : List Element) : List Element :=
  s.filter (fun e => SetM.HasElement E t e)

/-- `SetM.Intersect2` from `setm.go`: start with a copy of `s`, iterate over
`s` and remove from the copy the elements not found in `t`. -/
def SetM.Intersect2 (E : Nat → Nat → Bool) (s t : List Element) : List Element :=
  s.foldl (fun i e => if SetM.HasElement E t e then i else (SetM.Remove E i e).1)
    (SetM.Copy s)

/-- `SetM.UnionR` from `setm.go`: add each element of `t` to the receiver. -/
def SetM.UnionR (E : Nat → Nat → Bool) (r t : List Element) : List Element :=
  t.foldl (fun u e => (SetM.Add E u e).1) r

/-- `SetM.Union` from `setm.go`: `u := s.Copy(); for e in t { u.Add(e) }`. -/
def SetM.Union (E : Nat → Nat → Bool) (s t : List Element) : List Element :=
  SetM.UnionR E (SetM.Copy s) t

mutual

/-- `SetM.Flatten` from `setm.go`: for each element, if it is a `SetM`,
union in its flattening, otherwise add it. -/
def SetM.Flatten (E : Nat → Nat → Bool) (s : List Element) : List Element :=
  SetM.flattenLoop E [] s
termination_by (sizeOf s, 1)

/-- The loop of `SetM.Flatten`, with the accumulator `f` explicit. -/
def SetM.flattenLoop (E : Nat → Nat → Bool) (f : List Element) :
    List Element → List Element
  | [] => f
  | .setM s2 :: rest => SetM.flattenLoop E (SetM.UnionR E f (SetM.Flatten E s2)) rest
  | e :: rest => SetM.flattenLoop E ((SetM.Add E f e).1) rest
termination_by l => (sizeOf l, 0)

end

/-- Model of the recursive closure inside `SetM.Flatten2` from `setm.go`.
The source reads

  `var r func(SetM); r = func(SetM) { for _, e := range s { if s2, ok :=
  e.(SetM); ok { r(s2) } else { f.Add(e) } } }; r(s)`

The closure's parameter is unnamed and unused: every recursive call `r(s2)`
iterates over the captured outer `s` again, never over `s2`.  The model
makes the accumulated `f` and the remaining portion of the loop explicit;
`fuel` bounds the recursion depth (the Go call stack), and `none` models a
recursion that never returns (stack exhaustion). -/
def SetM.flatten2Go (E : Nat → Nat → Bool) (s : List Element) :
    Nat → List Element → List Element → Option (List Element)
  | 0, _, _ => none
  | _ + 1, f, [] => some f
  | fuel + 1, f, e :: rest =>
    match e with
    | .setM _ =>
      match SetM.flatten2Go E s fuel f s with
      | none => none
      | some f2 => SetM.flatten2Go E s (fuel + 1) f2 rest
    | _ => SetM.flatten2Go E s (fuel + 1) ((SetM.Add E f e).1) rest
termination_by fuel _ l => (fuel, l.length)

/-- `SetM.Flatten2` from `setm.go`: calls the closure on `s` with an empty
accumulator.  `fuel` is the available recursion depth. -/
def SetM.Flatten2 (E : Nat → Nat → Bool) (s : List Element) (fuel : Nat) :
    Option (List Element) :=
  SetM.flatten2Go E s fuel [] s

/-- `SetM.Pop` from `setm.go`: on the empty set, return `nil, false` (here
`none`) and leave the set unchanged; otherwise pick index `i := rand.Intn(n)`
(the random draw is modelled by reducing an arbitrary `i` modulo `n`),
return `s[i]`, shift the tail left one place and truncate. -/
def SetM.Pop (r : List Element) (i : Nat) : Option Element × List Element :=
  if h : r.length = 0 then (none, r)
  else
    let k := i % r.length
    (some (r.get ⟨k, Nat.mod_lt i (Nat.pos_of_ne_zero h)⟩), r.eraseIdx k)

/-- Repeated calls of `SetM.Pop`, one per entry of `idxs` (the successive
random draws), collecting the returned values and the final state. -/
def SetM.popSeq : List Element → List Nat → List (Option Element) × List Element
  | s, [] => ([], s)
  | s, i :: is =>
    let p := SetM.Pop s i
    let rest := SetM.popSeq p.2 is
    (p.1 :: rest.1, rest.2)

/-- The accumulation loop shared by `Set.PowerSet` (`set.go`) and
`SetM.PowerSet` (`setm.go`): `r := {{}}; for each es of s { var u; for er in
r { u = append(u, append(er, es)) }; r = append(r, u...) }`. -/
def set.powerAux : List (List Element) → List Element → List (List Element)
  | r, [] => r
  | r, es :: rest => set.powerAux (r ++ r.map (fun er => er ++ [es])) rest

/-- `Set.PowerSet` from `set.go`: the subsets, each a value of dynamic type
`Set`. -/
def Set.PowerSet (s : List Element) : List Element :=
  (set.powerAux [[]] s).map Element.set

/-- `SetM.PowerSet` from `setm.go`: the subsets, each a value of dynamic
type `SetM`. -/
def SetM.PowerSet (s : List Element) : List Element :=
  (set.powerAux [[]] s).map Element.setM

/-! ### Basic properties of the membership scans -/

theorem SetM.HasElement_nil (E : Nat → Nat → Bool) (e : Element) :
    SetM.HasElement E [] e = false := by
  simp [SetM.HasElement]

theorem SetM.HasElement_cons (E : Nat → Nat → Bool) (ex : Element)
    (rest : List Element) (e : Element) :
    SetM.HasElement E (ex :: rest) e
      = (Element.Equal E e ex || SetM.HasElement E rest e) := by
  simp [SetM.HasElement]

theorem SetM.HasElement_iff (E : Nat → Nat → Bool) (s : List Element) (e : Element) :
    SetM.HasElement E s e = true ↔ ∃ x ∈ s, Element.Equal E e x = true := by
  induction s with
  | nil => simp [SetM.HasElement_nil]
  | cons ex rest ih => simp [SetM.HasElement_cons, ih, or_and_right, exists_or]

theorem SetM.HasElement_eq_false_iff (E : Nat → Nat → Bool) (s : List Element)
    (e : Element) :
    SetM.HasElement E s e = false ↔ ∀ x ∈ s, Element.Equal E e x = false := by
  rw [← Bool.not_eq_true, SetM.HasElement_iff]
  simp

theorem SetM.HasElement_append (E : Nat → Nat → Bool) (s t : List Element)
    (e : Element) :
    SetM.HasElement E (s ++ t) e = (SetM.HasElement E s e || SetM.HasElement E t e) := by
  induction s with
  | nil => simp [SetM.HasElement_nil]
  | cons ex rest ih => simp [SetM.HasElement_cons, ih, Bool.or_assoc]

theorem SetM.HasElement_congr_perm (E : Nat → Nat → Bool) {s s' : List Element}
    (h : s.Perm s') (e : Element) :
    SetM.HasElement E s e = SetM.HasElement E s' e := by
  rcases hb : SetM.HasElement E s' e with _ | _
  · rw [SetM.HasElement_eq_false_iff] at hb ⊢
    intro x hx
    exact hb x (h.mem_iff.mp hx)
  · rw [SetM.HasElement_iff] at hb ⊢
    rcases hb with ⟨x, hx, hxe⟩
    exact ⟨x, h.mem_iff.mpr hx, hxe⟩

theorem Set.HasElement_eq (E : Nat → Nat → Bool) (s : List Element) (e : Element) :
    Set.HasElement E s e = SetM.HasElement E s e := by
  induction s with
  | nil => simp [Set.HasElement, SetM.HasElement]
  | cons ex rest ih => simp [Set.HasElement, SetM.HasElement, ih]

theorem SetM.Contains_iff (E : Nat → Nat → Bool) (s es : List Element) :
    SetM.Contains E s es = true ↔ ∀ e ∈ es, SetM.HasElement E s e = true := by
  induction es with
  | nil => simp [SetM.Contains]
  | cons e rest ih => simp [SetM.Contains, ih]

theorem Set.subsetScan_iff (E : Nat → Nat → Bool) (s t : List Element) :
    Set.subsetScan E s t = true ↔ ∀ se ∈ s, Set.HasElement E t se = true := by
  induction s with
  | nil => simp [Set.subsetScan]
  | cons se rest ih => simp [Set.subsetScan, ih]

theorem Element.Equal_setM_setM (E : Nat → Nat → Bool) (s t : List Element) :
    Element.Equal E (.setM s) (.setM t)
      = ((s.length == t.length) && SetM.Contains E s t) := by
  simp [Element.Equal]

theorem Element.Equal_set_set (E : Nat → Nat → Bool) (s t : List Element) :
    Element.Equal E (.set s) (.set t)
      = ((s.length == t.length) && Set.subsetScan E s t) := by
  simp [Element.Equal]

theorem SetM.Equal_true_iff (E : Nat → Nat → Bool) (s t : List Element) :
    Element.Equal E (.setM s) (.setM t) = true ↔
      s.length = t.length ∧ ∀ y ∈ t, SetM.HasElement E s y = true := by
  rw [Element.Equal_setM_setM]
  simp [SetM.Contains_iff]

theorem Set.Equal_set_true_iff (E : Nat → Nat → Bool) (s t : List Element) :
    Element.Equal E (.set s) (.set t) = true ↔
      s.length = t.length ∧ ∀ se ∈ s, Set.HasElement E t se = true := by
  rw [Element.Equal_set_set]
  simp [Set.subsetScan_iff]

/-! ### The equivalence-law hypotheses and the no-duplicates invariant

The package documents (`set.go`, doc comment of `Element`) that a valid
`Equal` implementation must make `Reflexive`, `Symetric` and `Transitive`
return true for all receivers and arguments.  `LawfulOn E l` states those
laws for the elements appearing in `l`.  `SetInv E s` is the data-model
invariant of the spec: no two positions of the backing slice hold elements
that are pairwise equal. -/

def LawfulOn (E : Nat → Nat → Bool) (l : List Element) : Prop :=
  (∀ a ∈ l, Element.Equal E a a = true) ∧
  (∀ a ∈ l, ∀ b ∈ l, Element.Equal E a b = Element.Equal E b a) ∧
  (∀ a ∈ l, ∀ b ∈ l, ∀ c ∈ l,
    Element.Equal E a b = true → Element.Equal E b c = true →
      Element.Equal E a c = true)

theorem LawfulOn.mono {E : Nat → Nat → Bool} {l l' : List Element}
    (hsub : ∀ x ∈ l', x ∈ l) (h : LawfulOn E l) : LawfulOn E l' :=
  ⟨fun a ha => h.1 a (hsub a ha),
   fun a ha b hb => h.2.1 a (hsub a ha) b (hsub b hb),
   fun a ha b hb c hc => h.2.2 a (hsub a ha) b (hsub b hb) c (hsub c hc)⟩

def SetInv (E : Nat → Nat → Bool) (s : List Element) : Prop :=
  s.Pairwise (fun a b => Element.Equal E a b = false ∧ Element.Equal E b a = false)

theorem SetInv.perm {E : Nat → Nat → Bool} {s s' : List Element}
    (hp : s.Perm s') (h : SetInv E s) : SetInv E s' :=
  hp.pairwise h (fun hxy => ⟨hxy.2, hxy.1⟩)

theorem SetInv.sublist {E : Nat → Nat → Bool} {s s' : List Element}
    (hs : s'.Sublist s) (h : SetInv E s) : SetInv E s' :=
  List.Pairwise.sublist hs h

/-! ### The swap-with-last removal of `Remove` is a permutation of `eraseIdx` -/

theorem dropLast_set_ge {α : Type} (l : List α) (n : Nat) (x : α)
    (h : l.length - 1 ≤ n) :
    (l.set n x).dropLast = l.dropLast := by
  apply List.ext_getElem
  · simp
  · intro k h1 h2
    have hk : k < l.length - 1 := by
      simpa using h2
    rw [List.getElem_dropLast, List.getElem_dropLast,
      List.getElem_set_ne (by omega)]

theorem swap_last_dropLast_perm {α : Type} [Inhabited α] (r : List α) (i : Nat)
    (h : i < r.length) :
    (((r.set i (r.getD (r.length - 1) default)).set (r.length - 1)
        (r.getD i default)).dropLast).Perm (r.eraseIdx i) := by
  have hpos : 0 < r.length := Nat.lt_of_le_of_lt (Nat.zero_le i) h
  have hb : r.getD (r.length - 1) default = r[r.length - 1] :=
    List.getD_eq_getElem r default (by omega)
  rw [dropLast_set_ge _ _ _ (by simp)]
  rcases Nat.lt_or_ge i (r.length - 1) with hi | hi
  · -- i is not the last index: the set really moves the last element to slot i
    rw [List.set_eq_take_cons_drop _ h]
    have hD : r.drop (i + 1) ≠ [] := by
      intro hnil
      rw [List.drop_eq_nil_iff] at hnil
      omega
    rw [List.dropLast_append_cons, List.dropLast_cons_of_ne_nil hD,
      List.eraseIdx_eq_take_drop_succ]
    refine List.Perm.append_left (r.take i) ?_
    have hlast : (r.drop (i + 1)).getLast hD = r.getD (r.length - 1) default := by
      rw [List.getLast_eq_getElem, List.getElem_drop, hb]
      congr 1
      simp only [List.length_drop]
      omega
    have hsplit := List.dropLast_concat_getLast hD
    rw [hlast] at hsplit
    conv_rhs => rw [← hsplit]
    exact (List.perm_append_singleton _ _).symm
  · -- i is the last index: the first set is dropped entirely as well
    have hieq : i = r.length - 1 := by omega
    subst hieq
    rw [dropLast_set_ge _ _ _ (by omega), List.eraseIdx_eq_take_drop_succ,
      List.dropLast_eq_take, Nat.sub_add_cancel hpos,
      List.drop_eq_nil_of_le (Nat.le_refl _), List.append_nil]

/-! ### Characterizations of `SetM.Remove` -/

theorem SetM.Remove_of_no_match (E : Nat → Nat → Bool) (r : List Element)
    (e : Element) (h : ∀ x ∈ r, Element.Equal E e x = false) :
    SetM.Remove E r e = (r, false) := by
  unfold SetM.Remove
  rw [List.findIdx?_eq_none_iff.mpr (by intro x hx; simpa using h x hx)]

theorem SetM.Remove_perm_eraseIdx (E : Nat → Nat → Bool) (r : List Element)
    (e : Element) (i : Nat)
    (hfind : r.findIdx? (fun ex => Element.Equal E e ex) = some i) :
    ((SetM.Remove E r e).1).Perm (r.eraseIdx i) ∧ (SetM.Remove E r e).2 = true := by
  have hi : i < r.length := by
    rcases List.findIdx?_eq_some_iff_getElem.mp hfind with ⟨hlt, _⟩
    exact hlt
  unfold SetM.Remove
  rw [hfind]
  exact ⟨swap_last_dropLast_perm r i hi, rfl⟩

theorem SetM.Remove_fst_perm (E : Nat → Nat → Bool) (r : List Element)
    (e : Element) :
    ((SetM.Remove E r e).1).Perm r ∨
      ∃ i, i < r.length ∧ ((SetM.Remove E r e).1).Perm (r.eraseIdx i) := by
  cases hfind : r.findIdx? (fun ex => Element.Equal E e ex) with
  | none =>
    left
    unfold SetM.Remove
    rw [hfind]
  | some i =>
    right
    have hi : i < r.length := by
      rcases List.findIdx?_eq_some_iff_getElem.mp hfind with ⟨hlt, _⟩
      exact hlt
    exact ⟨i, hi, (SetM.Remove_perm_eraseIdx E r e i hfind).1⟩

theorem SetM.Remove_subset (E : Nat → Nat → Bool) (r : List Element) (e : Element) :
    ∀ x ∈ (SetM.Remove E r e).1, x ∈ r := by
  intro x hx
  rcases SetM.Remove_fst_perm E r e with hp | ⟨i, _, hp⟩
  · exact hp.mem_iff.mp hx
  · exact List.eraseIdx_subset r i (hp.mem_iff.mp hx)

theorem SetM.Remove_inv (E : Nat → Nat → Bool) (r : List Element) (e : Element)
    (h : SetInv E r) : SetInv E (SetM.Remove E r e).1 := by
  rcases SetM.Remove_fst_perm E r e with hp | ⟨i, _, hp⟩
  · exact SetInv.perm hp.symm h
  · exact SetInv.perm hp.symm (SetInv.sublist (List.eraseIdx_sublist r i) h)

/-- Under the equivalence laws and the no-duplicates invariant, `Remove`
deletes exactly the (at most one) element matching the key: the result is a
permutation of the filter keeping the non-matching elements. -/
theorem SetM.Remove_perm_filter (E : Nat → Nat → Bool) {r : List Element}
    {e : Element} (hlaw : LawfulOn E (e :: r)) (hinv : SetInv E r) :
    ((SetM.Remove E r e).1).Perm
      (r.filter (fun x => !(Element.Equal E e x))) := by
  cases hfind : r.findIdx? (fun ex => Element.Equal E e ex) with
  | none =>
    have hall : ∀ x ∈ r, Element.Equal E e x = false := by
      intro x hx
      simpa using List.findIdx?_eq_none_iff.mp hfind x hx
    rw [SetM.Remove_of_no_match E r e hall]
    rw [List.filter_eq_self.mpr (by intro x hx; simp [hall x hx])]
  | some i =>
    rcases List.findIdx?_eq_some_iff_getElem.mp hfind with ⟨hi, hpi, hbefore⟩
    simp only [Bool.not_eq_eq_eq_not, Bool.not_true, Bool.not_eq_true] at hbefore
    have hafter : ∀ j, (hj : j < r.length) → j ≠ i →
        Element.Equal E e (r.get ⟨j, hj⟩) = false := by
      intro j hj hne
      rcases Nat.lt_or_ge j i with hlt | hge
      · simpa using hbefore j hlt
      · have hgt : i < j := by omega
        by_contra hcon
        rw [Bool.not_eq_false] at hcon
        have hmi : r.get ⟨i, hi⟩ ∈ r := r.get_mem i hi
        have hmj : r.get ⟨j, hj⟩ ∈ r := r.get_mem j hj
        have hie : Element.Equal E (r.get ⟨i, hi⟩) e = true := by
          rw [← hlaw.2.1 e (List.mem_cons_self _ _) (r.get ⟨i, hi⟩)
            (List.mem_cons_of_mem _ hmi)]
          simpa using hpi
        have hij : Element.Equal E (r.get ⟨i, hi⟩) (r.get ⟨j, hj⟩) = true :=
          hlaw.2.2 (r.get ⟨i, hi⟩) (List.mem_cons_of_mem _ hmi)
            e (List.mem_cons_self _ _)
            (r.get ⟨j, hj⟩) (List.mem_cons_of_mem _ hmj) hie hcon
        have := (List.pairwise_iff_getElem.mp hinv) i j hi hj hgt
        simp only [List.get_eq_getElem] at hij
        exact absurd hij (by simp [this.1])
    have hfilter : r.filter (fun x => !(Element.Equal E e x)) = r.eraseIdx i := by
      conv_lhs => rw [← List.take_append_drop i r]
      rw [List.drop_eq_getElem_cons hi, List.filter_append,
        List.eraseIdx_eq_take_drop_succ]
      have h1 : (r.take i).filter (fun x => !(Element.Equal E e x)) = r.take i := by
        apply List.filter_eq_self.mpr
        intro a ha
        rcases List.mem_take_iff_getElem.mp ha with ⟨j, hj, rfl⟩
        have hji : j < i := by omega
        simpa using hbefore j hji
      have h2 : (r[i] :: r.drop (i + 1)).filter (fun x => !(Element.Equal E e x))
          = r.drop (i + 1) := by
        have hpi2 : Element.Equal E e r[i] = true := by simpa using hpi
        have htail : (r.drop (i + 1)).filter (fun x => !(Element.Equal E e x))
            = r.drop (i + 1) := by
          apply List.filter_eq_self.mpr
          intro a ha
          rcases List.mem_drop_iff_getElem.mp ha with ⟨j, hj, rfl⟩
          have hja : Element.Equal E e (r.get ⟨i + 1 + j, by omega⟩) = false :=
            hafter (i + 1 + j) (by omega) (by omega)
          simpa using hja
        rw [List.filter_cons_of_neg (by simp [hpi2]), htail]
      rw [h1, h2]
    rw [hfilter]
    exact (SetM.Remove_perm_eraseIdx E r e i hfind).1

/-- Folding `Remove` over a list of keys removes, up to permutation, exactly
the elements equivalent to some key. -/
theorem SetM.foldl_Remove_perm_filter (E : Nat → Nat → Bool) :
    ∀ (cs d : List Element), LawfulOn E (d ++ cs) → SetInv E d →
    (cs.foldl (fun acc e => (SetM.Remove E acc e).1) d).Perm
      (d.filter (fun x => !(SetM.HasElement E cs x)))
  | [], d, _, _ => by
    simp [SetM.HasElement_nil]
  | e :: cs', d, hlaw, hinv => by
    have hsub1 : ∀ x ∈ (SetM.Remove E d e).1 ++ cs', x ∈ d ++ (e :: cs') := by
      intro x hx
      rcases List.mem_append.mp hx with hx | hx
      · exact List.mem_append.mpr (Or.inl (SetM.Remove_subset E d e x hx))
      · exact List.mem_append.mpr (Or.inr (List.mem_cons_of_mem _ hx))
    have hlaw1 : LawfulOn E ((SetM.Remove E d e).1 ++ cs') :=
      LawfulOn.mono hsub1 hlaw
    have hinv1 : SetInv E (SetM.Remove E d e).1 := SetM.Remove_inv E d e hinv
    have ih := SetM.foldl_Remove_perm_filter E cs' (SetM.Remove E d e).1 hlaw1 hinv1
    have hlawd : LawfulOn E (e :: d) := by
      apply LawfulOn.mono _ hlaw
      intro x hx
      rcases List.mem_cons.mp hx with rfl | hx
      · exact List.mem_append.mpr (Or.inr (List.mem_cons_self _ _))
      · exact List.mem_append.mpr (Or.inl hx)
    have hrm : ((SetM.Remove E d e).1).Perm
        (d.filter (fun x => !(Element.Equal E e x))) :=
      SetM.Remove_perm_filter E hlawd hinv
    have step : ((SetM.Remove E d e).1.filter
        (fun x => !(SetM.HasElement E cs' x))).Perm
        (d.filter (fun x => !(SetM.HasElement E (e :: cs') x))) := by
      have h1 := hrm.filter (fun x => !(SetM.HasElement E cs' x))
      have h2 : (d.filter (fun x => !(Element.Equal E e x))).filter
          (fun x => !(SetM.HasElement E cs' x))
          = d.filter (fun x => !(SetM.HasElement E (e :: cs') x)) := by
        rw [List.filter_filter]
        apply List.filter_congr
        intro x hx
        have hsym : Element.Equal E e x = Element.Equal E x e :=
          hlawd.2.1 e (List.mem_cons_self _ _) x (List.mem_cons_of_mem _ hx)
        rw [SetM.HasElement_cons]
        rw [Bool.not_or]
        rw [hsym]
        rw [Bool.and_comm]
      rw [h2] at h1
      exact h1
    have hfold : (e :: cs').foldl (fun acc x => (SetM.Remove E acc x).1) d
        = cs'.foldl (fun acc x => (SetM.Remove E acc x).1) (SetM.Remove E d e).1 := by
      simp [List.foldl_cons]
    rw [hfold]
    exact ih.trans step

/-- `Difference2` (copy then remove) agrees with `Difference` (filter) up to
permutation, under the equivalence laws and the no-duplicates invariant. -/
theorem SetM.Difference2_perm_Difference (E : Nat → Nat → Bool)
    (s c : List Element) (hlaw : LawfulOn E (s ++ c)) (hinv : SetInv E s) :
    (SetM.Difference2 E s c).Perm (SetM.Difference E s c) := by
  unfold SetM.Difference2 SetM.Difference SetM.Copy
  exact SetM.foldl_Remove_perm_filter E c s hlaw hinv

/-- A fold that skips elements satisfying `P` equals the fold over the
filtered list. -/
theorem foldl_if_skip {α β : Type} (P : β → Bool) (g : α → β → α) :
    ∀ (es : List β) (acc : α),
    es.foldl (fun a e => if P e then a else g a e) acc
      = (es.filter (fun e => !P e)).foldl g acc
  | [], _ => rfl
  | e :: es', acc => by
    by_cases h : P e
    · simp [List.filter_cons, h, foldl_if_skip P g es']
    · simp [List.filter_cons, h, foldl_if_skip P g es']

/-- `Intersect2` (copy then remove the non-members) agrees with `Intersect`
(filter) up to permutation, under the laws and the invariant. -/
theorem SetM.Intersect2_perm_Intersect (E : Nat → Nat → Bool)
    (s t : List Element) (hlaw : LawfulOn E (s ++ t)) (hinv : SetInv E s) :
    (SetM.Intersect2 E s t).Perm (SetM.Intersect E s t) := by
  unfold SetM.Intersect2 SetM.Copy
  rw [foldl_if_skip]
  have hsubK : ∀ x ∈ s ++ s.filter (fun e => !(SetM.HasElement E t e)),
      x ∈ s ++ t := by
    intro x hx
    rcases List.mem_append.mp hx with hx | hx
    · exact List.mem_append.mpr (Or.inl hx)
    · exact List.mem_append.mpr (Or.inl (List.mem_filter.mp hx).1)
  have h := SetM.foldl_Remove_perm_filter E
    (s.filter (fun e => !(SetM.HasElement E t e))) s
    (LawfulOn.mono hsubK hlaw) hinv
  have heq : s.filter (fun x =>
      !(SetM.HasElement E (s.filter (fun e => !(SetM.HasElement E t e))) x))
      = SetM.Intersect E s t := by
    unfold SetM.Intersect
    apply List.filter_congr
    intro x hx
    have hxst : x ∈ s ++ t := List.mem_append.mpr (Or.inl hx)
    rcases ht : SetM.HasElement E t x with _ | _
    · -- x is not in t: x itself survives the inner filter, so it is found
      have hxK : x ∈ s.filter (fun e => !(SetM.HasElement E t e)) :=
        List.mem_filter.mpr ⟨hx, by simp [ht]⟩
      have : SetM.HasElement E
          (s.filter (fun e => !(SetM.HasElement E t e))) x = true := by
        rw [SetM.HasElement_iff]
        exact ⟨x, hxK, hlaw.1 x hxst⟩
      simp [this, ht]
    · -- x is in t: nothing in the inner filter can match x
      have : SetM.HasElement E
          (s.filter (fun e => !(SetM.HasElement E t e))) x = false := by
        rw [SetM.HasElement_eq_false_iff]
        intro k hk
        rcases List.mem_filter.mp hk with ⟨hks, hknot⟩
        have hkst : k ∈ s ++ t := List.mem_append.mpr (Or.inl hks)
        by_contra hcon
        rw [Bool.not_eq_false] at hcon
        rcases (SetM.HasElement_iff E t x).mp ht with ⟨u, hu, hxu⟩
        have hust : u ∈ s ++ t := List.mem_append.mpr (Or.inr hu)
        have hkx : Element.Equal E k x = true := by
          rw [hlaw.2.1 k hkst x hxst]
          exact hcon
        have hku : Element.Equal E k u = true :=
          hlaw.2.2 k hkst x hxst u hust hkx hxu
        have : SetM.HasElement E t k = true := by
          rw [SetM.HasElement_iff]
          exact ⟨u, hu, hku⟩
        simp [this] at hknot
      simp [this, ht]
  rw [heq] at h
  exact h

/-- A permutation of a set is `SetM.Equal` to it, given reflexivity of the
elements' `Equal`. -/
theorem SetM.Equal_of_perm (E : Nat → Nat → Bool) {u v : List Element}
    (hp : u.Perm v) (hrefl : ∀ x ∈ v, Element.Equal E x x = true) :
    Element.Equal E (.setM u) (.setM v) = true := by
  rw [SetM.Equal_true_iff]
  refine ⟨hp.length_eq, fun y hy => ?_⟩
  rw [SetM.HasElement_iff]
  exact ⟨y, hp.mem_iff.mpr hy, hrefl y hy⟩

/-- A permutation of a set is `Set.Equal` to it, given reflexivity of the
elements' `Equal`. -/
theorem Set.Equal_of_perm_set (E : Nat → Nat → Bool) {u v : List Element}
    (hp : u.Perm v) (hrefl : ∀ x ∈ u, Element.Equal E x x = true) :
    Element.Equal E (.set u) (.set v) = true := by
  rw [Set.Equal_set_true_iff]
  refine ⟨hp.length_eq, fun se hse => ?_⟩
  rw [Set.HasElement_eq, SetM.HasElement_iff]
  exact ⟨se, hp.mem_iff.mp hse, hrefl se hse⟩

/-- When the concatenation satisfies the no-duplicates invariant, `UnionR`
performs no deduplication: it is plain concatenation. -/
theorem SetM.UnionR_eq_append (E : Nat → Nat → Bool) :
    ∀ (b a : List Element), SetInv E (a ++ b) → SetM.UnionR E a b = a ++ b
  | [], a, _ => by simp [SetM.UnionR]
  | e :: b', a, hinv => by
    have hadd : SetM.HasElement E a e = false := by
      rw [SetM.HasElement_eq_false_iff]
      intro x hx
      have hcross := (List.pairwise_append.mp hinv).2.2 x hx e
        (List.mem_cons_self _ _)
      exact hcross.2
    have hstep : SetM.UnionR E a (e :: b') = SetM.UnionR E (a ++ [e]) b' := by
      simp [SetM.UnionR, List.foldl_cons, SetM.Add, hadd]
    have hinv2 : SetInv E ((a ++ [e]) ++ b') := by
      have : (a ++ [e]) ++ b' = a ++ (e :: b') := by simp
      rw [this]
      exact hinv
    rw [hstep, SetM.UnionR_eq_append E b' (a ++ [e]) hinv2]
    simp

/-! ### Concrete element `Equal` implementations used for witnesses and
counterexamples -/

/-- The `Equal` of the test element type `intEle` (`set_test.go`): payload
equality. -/
def intEleEq : Nat → Nat → Bool := fun a b => a == b

/-- A deliberately non-reflexive `Equal`, like the naive floating-point
comparison on NaN exhibited in the package's tests (`naiveFEle`). -/
def neverEq : Nat → Nat → Bool := fun _ _ => false

/-- A deliberately asymmetric `Equal`: a receiver with payload 0 accepts
every base element. -/
def zeroAcceptsEq : Nat → Nat → Bool := fun a _ => a == 0

theorem lawfulOn_intEleEq (l : List Element)
    (hb : ∀ x ∈ l, ∃ n, x = Element.base n) : LawfulOn intEleEq l := by
  refine ⟨?_, ?_, ?_⟩
  · intro a ha
    rcases hb a ha with ⟨n, rfl⟩
    simp [Element.Equal, intEleEq]
  · intro a ha b hbm
    rcases hb a ha with ⟨n, rfl⟩
    rcases hb b hbm with ⟨m, rfl⟩
    simp only [Element.Equal, intEleEq]
    rw [Bool.eq_iff_iff]
    simp only [beq_iff_eq]
    exact eq_comm
  · intro a ha b hbm c hc h1 h2
    rcases hb a ha with ⟨n, rfl⟩
    rcases hb b hbm with ⟨m, rfl⟩
    rcases hb c hc with ⟨k, rfl⟩
    simp only [Element.Equal, intEleEq, beq_iff_eq] at h1 h2 ⊢
    omega

/-! ### Claim C10: `Equal` admits only the receiver's own dynamic type -/

/-- C10: `Set.Equal(nil)` is false even on the empty set, and a `Set` is
never `Equal` to a `SetM` (nor a `SetM` to a `Set`) even on identical
element slices: each type's `Equal` admits only its own dynamic type. -/
theorem claim_C10_dynamic_type_dispatch (E : Nat → Nat → Bool)
    (l : List Element) :
    Set.Equal E l .null = false ∧
    SetM.Equal E l .null = false ∧
    Set.Equal E l (.setM l) = false ∧
    SetM.Equal E l (.set l) = false := by
  refine ⟨?_, ?_, ?_, ?_⟩ <;> simp [Set.Equal, SetM.Equal, Element.Equal]

/-! ### Claim C6: adding twice (corrected: reflexivity at the element is
required) -/

/-- C6 counterexample: with a non-reflexive `Equal` (the package's own NaN
example), adding the same element twice to the empty set increases the
cardinality by 2 and `HasElement` still returns false, contradicting the
claim as stated for arbitrary elements. -/
theorem claim_C6_counterexample :
    ¬(SetM.Cardinality
        (SetM.Add neverEq (SetM.Add neverEq [] (.base 0)).1 (.base 0)).1
        ≤ SetM.Cardinality ([] : List Element) + 1 ∧
      SetM.HasElement neverEq
        (SetM.Add neverEq (SetM.Add neverEq [] (.base 0)).1 (.base 0)).1
        (.base 0) = true) := by
  simp [SetM.Add, SetM.HasElement, SetM.Cardinality, Element.Equal, neverEq]

/-- C6 (amended): for an element whose `Equal` is reflexive at that element
(`Reflexive(e)`, the validator from `set.go`), after two `Add(e)` calls the
cardinality has grown by at most 1 and `HasElement(e)` is true. -/
theorem claim_C6_add_twice (E : Nat → Nat → Bool) (s : List Element)
    (e : Element) (hrefl : set.Reflexive E e = true) :
    SetM.Cardinality (SetM.Add E (SetM.Add E s e).1 e).1
      ≤ SetM.Cardinality s + 1 ∧
    SetM.HasElement E (SetM.Add E (SetM.Add E s e).1 e).1 e = true := by
  unfold set.Reflexive at hrefl
  cases h : SetM.HasElement E s e with
  | true =>
    simp only [SetM.Add, h, if_true]
    simp [h, SetM.Cardinality]
  | false =>
    have h2 : SetM.HasElement E (s ++ [e]) e = true := by
      rw [SetM.HasElement_append]
      simp [SetM.HasElement_cons, SetM.HasElement_nil, hrefl]
    simp only [SetM.Add, h, if_false, Bool.false_eq_true]
    simp only [h2, if_true]
    simp [h2, SetM.Cardinality]

theorem claim_C6_witness :
    set.Reflexive intEleEq (.base 0) = true ∧
    (SetM.Cardinality
        (SetM.Add intEleEq (SetM.Add intEleEq [] (.base 0)).1 (.base 0)).1
        ≤ SetM.Cardinality ([] : List Element) + 1 ∧
      SetM.HasElement intEleEq
        (SetM.Add intEleEq (SetM.Add intEleEq [] (.base 0)).1 (.base 0)).1
        (.base 0) = true) :=
  ⟨by simp [set.Reflexive, Element.Equal, intEleEq],
   claim_C6_add_twice intEleEq [] (.base 0)
     (by simp [set.Reflexive, Element.Equal, intEleEq])⟩

/-! ### Claim C1: `Flatten` versus `Flatten2` (code bug)

`Flatten2`'s inner closure ignores its parameter and iterates the captured
outer set again, so on any input containing a nested `SetM` the recursion
never terminates, while `Flatten` returns the flattened contents. -/

/-- C1: on the one-level nested input `SetM{SetM{1}}`, `Flatten` returns
`{1}`, while `Flatten2` fails to return for every recursion depth: the
closure `r` calls itself on the same outer set forever. -/
theorem claim_C1_flatten2_diverges :
    (∀ (E : Nat → Nat → Bool) (fuel : Nat) (f : List Element),
      SetM.flatten2Go E [Element.setM [Element.base 1]] fuel f
        [Element.setM [Element.base 1]] = none) ∧
    (∀ (E : Nat → Nat → Bool) (fuel : Nat),
      SetM.Flatten2 E [Element.setM [Element.base 1]] fuel = none) ∧
    SetM.Flatten intEleEq [Element.setM [Element.base 1]] = [Element.base 1] := by
  have hgo : ∀ (E : Nat → Nat → Bool) (fuel : Nat) (f : List Element),
      SetM.flatten2Go E [Element.setM [Element.base 1]] fuel f
        [Element.setM [Element.base 1]] = none := by
    intro E fuel
    induction fuel with
    | zero => intro f; simp [SetM.flatten2Go]
    | succ n ih => intro f; simp [SetM.flatten2Go, ih]
  refine ⟨hgo, fun E fuel => hgo E fuel [], ?_⟩
  simp [SetM.Flatten, SetM.flattenLoop, SetM.UnionR, SetM.Add,
    SetM.HasElement]

/-! ### Claim C4: `Difference2` agrees with `Difference` -/

/-- C4: under the equivalence laws for the elements involved and the
no-duplicates invariant for `s`, `s.Difference2(c)` is `Equal` (set-equal)
to `s.Difference(c)`, and both contain exactly the elements of `s` not
equivalent to any element of `c`.  (Both operations are pure functions of
their operands in this embedding; `Difference2` removes only from the copy
produced by `Copy`.) -/
theorem claim_C4_difference2 (E : Nat → Nat → Bool) (s c : List Element)
    (hlaw : LawfulOn E (s ++ c)) (hinv : SetInv E s) :
    Element.Equal E (.setM (SetM.Difference2 E s c))
        (.setM (SetM.Difference E s c)) = true ∧
    (∀ x, x ∈ SetM.Difference E s c ↔ x ∈ s ∧ SetM.HasElement E c x = false) ∧
    (∀ x, x ∈ SetM.Difference2 E s c ↔ x ∈ s ∧ SetM.HasElement E c x = false) := by
  have hperm := SetM.Difference2_perm_Difference E s c hlaw hinv
  have hchar : ∀ x, x ∈ SetM.Difference E s c ↔
      x ∈ s ∧ SetM.HasElement E c x = false := by
    intro x
    simp [SetM.Difference, List.mem_filter]
  refine ⟨?_, hchar, ?_⟩
  · apply SetM.Equal_of_perm E hperm
    intro x hx
    have hxs : x ∈ s := ((hchar x).mp hx).1
    exact hlaw.1 x (List.mem_append.mpr (Or.inl hxs))
  · intro x
    rw [hperm.mem_iff]
    exact hchar x

theorem claim_C4_witness :
    (LawfulOn intEleEq ([Element.base 0] ++ [Element.base 1]) ∧
      SetInv intEleEq [Element.base 0]) ∧
    (Element.Equal intEleEq
        (.setM (SetM.Difference2 intEleEq [Element.base 0] [Element.base 1]))
        (.setM (SetM.Difference intEleEq [Element.base 0] [Element.base 1]))
        = true ∧
      (∀ x, x ∈ SetM.Difference intEleEq [Element.base 0] [Element.base 1] ↔
        x ∈ [Element.base 0] ∧
          SetM.HasElement intEleEq [Element.base 1] x = false) ∧
      (∀ x, x ∈ SetM.Difference2 intEleEq [Element.base 0] [Element.base 1] ↔
        x ∈ [Element.base 0] ∧
          SetM.HasElement intEleEq [Element.base 1] x = false)) := by
  have hb : ∀ x ∈ [Element.base 0] ++ [Element.base 1], ∃ n, x = Element.base n := by
    intro x hx
    rcases List.mem_append.mp hx with hx | hx <;> simp at hx <;>
      exact ⟨_, hx⟩
  have hlaw := lawfulOn_intEleEq _ hb
  have hinv : SetInv intEleEq [Element.base 0] := by
    simp [SetInv]
  exact ⟨⟨hlaw, hinv⟩,
    claim_C4_difference2 intEleEq [Element.base 0] [Element.base 1] hlaw hinv⟩

/-! ### Claim C5: `Intersect2` agrees with `Intersect` -/

/-- C5: under the equivalence laws for the elements involved and the
no-duplicates invariant for `s`, `s.Intersect2(t)` is `Equal` (set-equal)
to `s.Intersect(t)`, and both contain exactly the elements of `s`
equivalent to some element of `t`. -/
theorem claim_C5_intersect2 (E : Nat → Nat → Bool) (s t : List Element)
    (hlaw : LawfulOn E (s ++ t)) (hinv : SetInv E s) :
    Element.Equal E (.setM (SetM.Intersect2 E s t))
        (.setM (SetM.Intersect E s t)) = true ∧
    (∀ x, x ∈ SetM.Intersect E s t ↔ x ∈ s ∧ SetM.HasElement E t x = true) ∧
    (∀ x, x ∈ SetM.Intersect2 E s t ↔ x ∈ s ∧ SetM.HasElement E t x = true) := by
  have hperm := SetM.Intersect2_perm_Intersect E s t hlaw hinv
  have hchar : ∀ x, x ∈ SetM.Intersect E s t ↔
      x ∈ s ∧ SetM.HasElement E t x = true := by
    intro x
    simp [SetM.Intersect, List.mem_filter]
  refine ⟨?_, hchar, ?_⟩
  · apply SetM.Equal_of_perm E hperm
    intro x hx
    have hxs : x ∈ s := ((hchar x).mp hx).1
    exact hlaw.1 x (List.mem_append.mpr (Or.inl hxs))
  · intro x
    rw [hperm.mem_iff]
    exact hchar x

theorem claim_C5_witness :
    (LawfulOn intEleEq ([Element.base 0] ++ [Element.base 0]) ∧
      SetInv intEleEq [Element.base 0]) ∧
    (Element.Equal intEleEq
        (.setM (SetM.Intersect2 intEleEq [Element.base 0] [Element.base 0]))
        (.setM (SetM.Intersect intEleEq [Element.base 0] [Element.base 0]))
        = true ∧
      (∀ x, x ∈ SetM.Intersect intEleEq [Element.base 0] [Element.base 0] ↔
        x ∈ [Element.base 0] ∧
          SetM.HasElement intEleEq [Element.base 0] x = true) ∧
      (∀ x, x ∈ SetM.Intersect2 intEleEq [Element.base 0] [Element.base 0] ↔
        x ∈ [Element.base 0] ∧
          SetM.HasElement intEleEq [Element.base 0] x = true)) := by
  have hb : ∀ x ∈ [Element.base 0] ++ [Element.base 0], ∃ n, x = Element.base n := by
    intro x hx
    rcases List.mem_append.mp hx with hx | hx <;> simp at hx <;>
      exact ⟨_, hx⟩
  have hlaw := lawfulOn_intEleEq _ hb
  have hinv : SetInv intEleEq [Element.base 0] := by
    simp [SetInv]
  exact ⟨⟨hlaw, hinv⟩,
    claim_C5_intersect2 intEleEq [Element.base 0] [Element.base 0] hlaw hinv⟩

/-! ### Claim C2: `Intersect`/`Difference` partition `s` (corrected:
their union reconstructs `s`, not `s ∪ t`) -/

/-- C2 counterexample: with `s` empty and `t = {0}` (and the ordinary
integer equality of the tests), `Union(Intersect, Difference)` is the empty
set while `s.Union(t)` is `{0}`; they are not set-equal, refuting
"reconstructs `s ∪ t`" as stated. -/
theorem claim_C2_counterexample :
    Element.Equal intEleEq
      (.setM (SetM.Union intEleEq
        (SetM.Intersect intEleEq [] [Element.base 0])
        (SetM.Difference intEleEq [] [Element.base 0])))
      (.setM (SetM.Union intEleEq [] [Element.base 0])) = false := by
  simp [SetM.Union, SetM.UnionR, SetM.Intersect, SetM.Difference, SetM.Copy,
    SetM.Add, SetM.HasElement, Element.Equal]

/-- C2 (amended): every element of `s` lies in exactly one of
`s.Intersect(t)` and `s.Difference(t)`; and under the equivalence laws and
the no-duplicates invariant for `s`, `Union(Intersect, Difference)` is
set-equal to `s` (the union reconstructs `s`; it is not in general
set-equal to `s.Union(t)`). -/
theorem claim_C2_partition (E : Nat → Nat → Bool) (s t : List Element)
    (hlaw : LawfulOn E (s ++ t)) (hinv : SetInv E s) :
    (∀ e ∈ s,
      (e ∈ SetM.Intersect E s t ∧ e ∉ SetM.Difference E s t) ∨
      (e ∉ SetM.Intersect E s t ∧ e ∈ SetM.Difference E s t)) ∧
    Element.Equal E
      (.setM (SetM.Union E (SetM.Intersect E s t) (SetM.Difference E s t)))
      (.setM s) = true := by
  have hperm : (SetM.Intersect E s t ++ SetM.Difference E s t).Perm s :=
    List.filter_append_perm _ s
  constructor
  · intro e he
    cases h : SetM.HasElement E t e with
    | true =>
      left
      constructor
      · simp [SetM.Intersect, List.mem_filter, he, h]
      · simp [SetM.Difference, List.mem_filter, h]
    | false =>
      right
      constructor
      · simp [SetM.Intersect, List.mem_filter, h]
      · simp [SetM.Difference, List.mem_filter, he, h]
  · have hinvID : SetInv E (SetM.Intersect E s t ++ SetM.Difference E s t) :=
      SetInv.perm hperm.symm hinv
    have hun : SetM.Union E (SetM.Intersect E s t) (SetM.Difference E s t)
        = SetM.Intersect E s t ++ SetM.Difference E s t := by
      unfold SetM.Union SetM.Copy
      exact SetM.UnionR_eq_append E _ _ hinvID
    rw [hun]
    apply SetM.Equal_of_perm E hperm
    intro x hx
    exact hlaw.1 x (List.mem_append.mpr (Or.inl hx))

theorem claim_C2_witness :
    (LawfulOn intEleEq ([Element.base 0] ++ [Element.base 1]) ∧
      SetInv intEleEq [Element.base 0]) ∧
    ((∀ e ∈ [Element.base 0],
      (e ∈ SetM.Intersect intEleEq [Element.base 0] [Element.base 1] ∧
        e ∉ SetM.Difference intEleEq [Element.base 0] [Element.base 1]) ∨
      (e ∉ SetM.Intersect intEleEq [Element.base 0] [Element.base 1] ∧
        e ∈ SetM.Difference intEleEq [Element.base 0] [Element.base 1])) ∧
    Element.Equal intEleEq
      (.setM (SetM.Union intEleEq
        (SetM.Intersect intEleEq [Element.base 0] [Element.base 1])
        (SetM.Difference intEleEq [Element.base 0] [Element.base 1])))
      (.setM [Element.base 0]) = true) := by
  have hb : ∀ x ∈ [Element.base 0] ++ [Element.base 1], ∃ n, x = Element.base n := by
    intro x hx
    rcases List.mem_append.mp hx with hx | hx <;> simp at hx <;>
      exact ⟨_, hx⟩
  have hlaw := lawfulOn_intEleEq _ hb
  have hinv : SetInv intEleEq [Element.base 0] := by
    simp [SetInv]
  exact ⟨⟨hlaw, hinv⟩,
    claim_C2_partition intEleEq [Element.base 0] [Element.base 1] hlaw hinv⟩

/-! ### Claim C3: the power set -/

theorem set.powerAux_length : ∀ (s : List Element) (r : List (List Element)),
    (set.powerAux r s).length = r.length * 2 ^ s.length
  | [], r => by simp [set.powerAux]
  | es :: rest, r => by
    rw [set.powerAux, set.powerAux_length rest]
    simp only [List.length_append, List.length_map, List.length_cons]
    ring

theorem set.powerAux_mem : ∀ (s : List Element) (r : List (List Element))
    (x : List Element), x ∈ r → x ∈ set.powerAux r s
  | [], _, _, hx => by simpa [set.powerAux] using hx
  | es :: rest, r, x, hx => by
    rw [set.powerAux]
    exact set.powerAux_mem rest _ x (List.mem_append.mpr (Or.inl hx))

theorem set.powerAux_full : ∀ (s : List Element) (r : List (List Element))
    (acc : List Element), acc ∈ r → (acc ++ s) ∈ set.powerAux r s
  | [], _, acc, hacc => by simpa [set.powerAux] using hacc
  | es :: rest, r, acc, hacc => by
    rw [set.powerAux]
    have hmem : (acc ++ [es]) ∈ r ++ r.map (fun er => er ++ [es]) :=
      List.mem_append.mpr (Or.inr (List.mem_map.mpr ⟨acc, hacc, rfl⟩))
    have h := set.powerAux_full rest _ (acc ++ [es]) hmem
    simpa using h

/-- C3: for a set of cardinality `n` whose elements' `Equal` satisfies the
equivalence laws, the power set (both the `Set` and the `SetM` version) has
cardinality `2^n`, contains the empty set as an element, and contains a set
equal to `s` itself as an element. -/
theorem claim_C3_powerset (E : Nat → Nat → Bool) (s : List Element)
    (hlaw : LawfulOn E s) :
    SetM.Cardinality (SetM.PowerSet s) = 2 ^ SetM.Cardinality s ∧
    (Set.PowerSet s).length = 2 ^ s.length ∧
    SetM.HasElement E (SetM.PowerSet s) (.setM []) = true ∧
    Set.HasElement E (Set.PowerSet s) (.set []) = true ∧
    SetM.HasElement E (SetM.PowerSet s) (.setM s) = true ∧
    Set.HasElement E (Set.PowerSet s) (.set s) = true := by
  have hnil : ([] : List Element) ∈ set.powerAux [[]] s :=
    set.powerAux_mem s [[]] [] (by simp)
  have hfull : s ∈ set.powerAux [[]] s := by
    have h := set.powerAux_full s [[]] [] (by simp)
    simpa using h
  refine ⟨?_, ?_, ?_, ?_, ?_, ?_⟩
  · unfold SetM.Cardinality SetM.PowerSet
    rw [List.length_map, set.powerAux_length]
    simp
  · unfold Set.PowerSet
    rw [List.length_map, set.powerAux_length]
    simp
  · rw [SetM.HasElement_iff]
    refine ⟨.setM [], List.mem_map.mpr ⟨[], hnil, rfl⟩, ?_⟩
    simp [Element.Equal, SetM.Contains]
  · rw [Set.HasElement_eq, SetM.HasElement_iff]
    refine ⟨.set [], List.mem_map.mpr ⟨[], hnil, rfl⟩, ?_⟩
    simp [Element.Equal, Set.subsetScan]
  · rw [SetM.HasElement_iff]
    refine ⟨.setM s, List.mem_map.mpr ⟨s, hfull, rfl⟩, ?_⟩
    exact SetM.Equal_of_perm E (List.Perm.refl s) (fun x hx => hlaw.1 x hx)
  · rw [Set.HasElement_eq, SetM.HasElement_iff]
    refine ⟨.set s, List.mem_map.mpr ⟨s, hfull, rfl⟩, ?_⟩
    exact Set.Equal_of_perm_set E (List.Perm.refl s) (fun x hx => hlaw.1 x hx)

theorem claim_C3_witness :
    LawfulOn intEleEq [Element.base 0] ∧
    (SetM.Cardinality (SetM.PowerSet [Element.base 0])
        = 2 ^ SetM.Cardinality [Element.base 0] ∧
      (Set.PowerSet [Element.base 0]).length = 2 ^ [Element.base 0].length ∧
      SetM.HasElement intEleEq (SetM.PowerSet [Element.base 0]) (.setM [])
        = true ∧
      Set.HasElement intEleEq (Set.PowerSet [Element.base 0]) (.set [])
        = true ∧
      SetM.HasElement intEleEq (SetM.PowerSet [Element.base 0])
        (.setM [Element.base 0]) = true ∧
      Set.HasElement intEleEq (Set.PowerSet [Element.base 0])
        (.set [Element.base 0]) = true) := by
  have hlaw : LawfulOn intEleEq [Element.base 0] :=
    lawfulOn_intEleEq _ (by intro x hx; simp at hx; exact ⟨_, hx⟩)
  exact ⟨hlaw, claim_C3_powerset intEleEq [Element.base 0] hlaw⟩

/-! ### Claim C8: popping a set to exhaustion -/

theorem getElem_cons_eraseIdx_perm {α : Type} (l : List α) (k : Nat)
    (hk : k < l.length) :
    (l[k] :: l.eraseIdx k).Perm l := by
  rw [List.eraseIdx_eq_take_drop_succ]
  conv_rhs => rw [← List.take_append_drop k l, List.drop_eq_getElem_cons hk]
  exact List.perm_middle.symm

theorem SetM.Pop_empty (j : Nat) : SetM.Pop [] j = (none, []) := by
  simp [SetM.Pop]

theorem SetM.Pop_nonempty (r : List Element) (i : Nat) (h : r.length ≠ 0) :
    SetM.Pop r i
      = (some (r.get ⟨i % r.length, Nat.mod_lt i (Nat.pos_of_ne_zero h)⟩),
         r.eraseIdx (i % r.length)) := by
  simp [SetM.Pop, h]

theorem SetM.popSeq_spec : ∀ (idxs : List Nat) (s : List Element),
    idxs.length = s.length →
    (SetM.popSeq s idxs).1.length = idxs.length ∧
    (∀ x ∈ (SetM.popSeq s idxs).1, x.isSome = true) ∧
    (SetM.popSeq s idxs).2 = [] ∧
    ((SetM.popSeq s idxs).1.reduceOption).Perm s
  | [], s, h => by
    have hs : s = [] := List.length_eq_zero.mp h.symm
    subst hs
    simp [SetM.popSeq]
  | i :: is, s, h => by
    have hpos : s.length ≠ 0 := by
      simp only [List.length_cons] at h
      omega
    have hk : i % s.length < s.length := Nat.mod_lt i (Nat.pos_of_ne_zero hpos)
    have hlen2 : is.length = (s.eraseIdx (i % s.length)).length := by
      rw [List.length_eraseIdx_of_lt hk]
      simp only [List.length_cons] at h
      omega
    have ih := SetM.popSeq_spec is (s.eraseIdx (i % s.length)) hlen2
    have hstep : SetM.popSeq s (i :: is)
        = ((SetM.Pop s i).1 :: (SetM.popSeq (SetM.Pop s i).2 is).1,
           (SetM.popSeq (SetM.Pop s i).2 is).2) := by
      rfl
    rw [hstep, SetM.Pop_nonempty s i hpos]
    refine ⟨by simpa using ih.1, ?_, ih.2.2.1, ?_⟩
    · intro x hx
      rcases List.mem_cons.mp hx with rfl | hx
      · rfl
      · exact ih.2.1 x hx
    · rw [List.reduceOption_cons_of_some]
      have hperm := ih.2.2.2
      have hmain : (s.get ⟨i % s.length, hk⟩ :: s.eraseIdx (i % s.length)).Perm s := by
        have := getElem_cons_eraseIdx_perm s (i % s.length) hk
        simpa using this
      exact (hperm.cons _).trans hmain

/-- C8: from a set `r` of cardinality `n` satisfying the no-duplicates
invariant, `n` successive `Pop` calls (for any sequence of random draws)
each return an element with `ok = true`; the returned elements are pairwise
non-equal and form a permutation of `r` (so each was originally present);
the final state is empty, and one further `Pop` returns `(nil, false)`
leaving the set unchanged. -/
theorem claim_C8_pop_exhaustion (E : Nat → Nat → Bool) (r : List Element)
    (idxs : List Nat) (hinv : SetInv E r) (hlen : idxs.length = r.length) :
    (SetM.popSeq r idxs).1.length = r.length ∧
    (∀ x ∈ (SetM.popSeq r idxs).1, x.isSome = true) ∧
    ((SetM.popSeq r idxs).1.reduceOption).Perm r ∧
    ((SetM.popSeq r idxs).1.reduceOption).Pairwise
      (fun a b => Element.Equal E a b = false ∧ Element.Equal E b a = false) ∧
    (SetM.popSeq r idxs).2 = [] ∧
    (∀ j, SetM.Pop (SetM.popSeq r idxs).2 j = (none, (SetM.popSeq r idxs).2)) := by
  obtain ⟨h1, h2, h3, h4⟩ := SetM.popSeq_spec idxs r hlen
  refine ⟨by rw [h1, hlen], h2, h4, ?_, h3, ?_⟩
  · exact SetInv.perm h4.symm hinv
  · intro j
    rw [h3]
    exact SetM.Pop_empty j

theorem claim_C8_witness :
    (SetInv intEleEq [Element.base 0, Element.base 1] ∧
      ([0, 0] : List Nat).length = [Element.base 0, Element.base 1].length) ∧
    ((SetM.popSeq [Element.base 0, Element.base 1] [0, 0]).1.length
        = [Element.base 0, Element.base 1].length ∧
      (∀ x ∈ (SetM.popSeq [Element.base 0, Element.base 1] [0, 0]).1,
        x.isSome = true) ∧
      ((SetM.popSeq [Element.base 0, Element.base 1] [0, 0]).1.reduceOption).Perm
        [Element.base 0, Element.base 1] ∧
      ((SetM.popSeq [Element.base 0, Element.base 1] [0, 0]).1.reduceOption).Pairwise
        (fun a b => Element.Equal intEleEq a b = false ∧
          Element.Equal intEleEq b a = false) ∧
      (SetM.popSeq [Element.base 0, Element.base 1] [0, 0]).2 = [] ∧
      (∀ j, SetM.Pop (SetM.popSeq [Element.base 0, Element.base 1] [0, 0]).2 j
        = (none, (SetM.popSeq [Element.base 0, Element.base 1] [0, 0]).2))) := by
  have hinv : SetInv intEleEq [Element.base 0, Element.base 1] := by
    simp [SetInv, Element.Equal, intEleEq]
  exact ⟨⟨hinv, rfl⟩,
    claim_C8_pop_exhaustion intEleEq [Element.base 0, Element.base 1] [0, 0]
      hinv rfl⟩

/-! ### Claim C7: the `Equal` methods of the two set types (corrected:
`SetM.Equal` scans the argument's elements, not the receiver's) -/

/-- The claim's characterization of `Set.Equal`: cardinalities match and
every element of the receiver is found, by the `HasElement` scan, in the
argument. -/
def specSetEqual (E : Nat → Nat → Bool) (s t : List Element) : Bool :=
  (s.length == t.length) && s.all (fun se => Set.HasElement E t se)

/-- The claim's characterization transplanted to `SetM`: cardinalities
match and every element of the receiver is found in the argument. -/
def specSetMEqual (E : Nat → Nat → Bool) (s t : List Element) : Bool :=
  (s.length == t.length) && s.all (fun se => SetM.HasElement E t se)

theorem Set.subsetScan_eq_all (E : Nat → Nat → Bool) (s t : List Element) :
    Set.subsetScan E s t = s.all (fun se => Set.HasElement E t se) := by
  induction s with
  | nil => simp [Set.subsetScan]
  | cons se rest ih => simp [Set.subsetScan, ih]

/-- Pigeonhole: between two duplicate-free sets of equal cardinality whose
elements obey the equivalence laws, containment in one direction implies
containment in the other. -/
theorem subset_swap_of_card_eq (E : Nat → Nat → Bool) {s t : List Element}
    (hlen : s.length = t.length) (hlaw : LawfulOn E (s ++ t))
    (_hs : SetInv E s) (ht : SetInv E t)
    (hcont : ∀ y ∈ t, SetM.HasElement E s y = true) :
    ∀ x ∈ s, SetM.HasElement E t x = true := by
  classical
  have hex : ∀ j : Fin t.length, ∃ x ∈ s,
      Element.Equal E (t.get j) x = true := by
    intro j
    exact (SetM.HasElement_iff E s (t.get j)).mp
      (hcont (t.get j) (t.get_mem j j.isLt))
  let f : Fin t.length → Fin s.length := fun j =>
    ⟨s.findIdx (fun x => Element.Equal E (t.get j) x),
     List.findIdx_lt_length_of_exists (hex j)⟩
  have hf : ∀ j : Fin t.length,
      Element.Equal E (t.get j) (s.get (f j)) = true := by
    intro j
    have := @List.findIdx_getElem Element
      (fun x => Element.Equal E (t.get j) x) s
      (List.findIdx_lt_length_of_exists (hex j))
    simpa using this
  have hinj : Function.Injective f := by
    intro j j' hjj
    by_contra hne
    have hx : Element.Equal E (t.get j) (s.get (f j)) = true := hf j
    have hx2 : Element.Equal E (t.get j') (s.get (f j)) = true := by
      rw [hjj]
      exact hf j'
    have hmemt : ∀ k : Fin t.length, t.get k ∈ s ++ t := fun k =>
      List.mem_append.mpr (Or.inr (t.get_mem k k.isLt))
    have hmems : s.get (f j) ∈ s ++ t :=
      List.mem_append.mpr (Or.inl (s.get_mem (f j) (f j).isLt))
    have hsym : Element.Equal E (s.get (f j)) (t.get j') = true := by
      rw [hlaw.2.1 (s.get (f j)) hmems (t.get j') (hmemt j')]
      exact hx2
    have hjj' : Element.Equal E (t.get j) (t.get j') = true :=
      hlaw.2.2 (t.get j) (hmemt j) (s.get (f j)) hmems (t.get j') (hmemt j')
        hx hsym
    have hpair := List.pairwise_iff_getElem.mp ht
    rcases Nat.lt_or_ge j.val j'.val with hlt | hge
    · have := hpair j.val j'.val j.isLt j'.isLt hlt
      simp only [List.get_eq_getElem] at hjj'
      exact absurd hjj' (by simp [this.1])
    · have hlt2 : j'.val < j.val := by
        rcases Nat.lt_or_ge j'.val j.val with h2 | h2
        · exact h2
        · exact absurd (Fin.ext (by omega)) hne
      have := hpair j'.val j.val j'.isLt j.isLt hlt2
      simp only [List.get_eq_getElem] at hjj'
      exact absurd hjj' (by simp [this.2])
  have hsurj : Function.Surjective (fun j => Fin.cast hlen (f j)) := by
    rw [← Finite.injective_iff_surjective]
    intro a b hab
    exact hinj (by
      apply Fin.ext
      have := congrArg Fin.val hab
      simpa using this)
  intro x hx
  rcases List.mem_iff_getElem.mp hx with ⟨i, hi, rfl⟩
  rcases hsurj (Fin.cast hlen ⟨i, hi⟩) with ⟨j, hj⟩
  have hfj : f j = ⟨i, hi⟩ := by
    apply Fin.ext
    have := congrArg Fin.val hj
    simpa using this
  have hmatch : Element.Equal E (t.get j) (s.get ⟨i, hi⟩) = true := by
    rw [← hfj]
    exact hf j
  rw [SetM.HasElement_iff]
  refine ⟨t.get j, t.get_mem j j.isLt, ?_⟩
  rw [hlaw.2.1 (s[i]) (List.mem_append.mpr (Or.inl hx)) (t.get j)
    (List.mem_append.mpr (Or.inr (t.get_mem j j.isLt)))]
  simpa using hmatch

/-- C7 counterexample: an `Equal` implementation in which payload-0
receivers accept everything (legal for the `Element` interface, though it
violates the symmetry law).  `SetM{0}.Equal(SetM{1})` returns false, while
the claim's characterization — every element of the receiver found in the
argument, with matching cardinalities — evaluates to true: `SetM.Equal`
scans the argument's elements in the receiver, not the other way around. -/
theorem claim_C7_counterexample :
    SetM.Equal zeroAcceptsEq [Element.base 0] (.setM [Element.base 1]) = false ∧
    specSetMEqual zeroAcceptsEq [Element.base 0] [Element.base 1] = true := by
  constructor
  · simp [SetM.Equal, Element.Equal, SetM.Contains, SetM.HasElement,
      zeroAcceptsEq]
  · simp [specSetMEqual, SetM.HasElement, Element.Equal, zeroAcceptsEq]

/-- C7 (amended): `Set.Equal` returns false when the argument's dynamic
type is not `Set`, and on a `Set` argument it is exactly the claim's
characterization (cardinalities match and each receiver element is found in
the argument).  `SetM.Equal` returns false when the argument is not a
`SetM`, and on a `SetM` argument it checks, in the scan direction opposite
to the claim, that each *argument* element is found in the receiver
(`s.Contains(t...)`); under the equivalence laws and the no-duplicates
invariant the two directions coincide.  Both functions are total (never
panic). -/
theorem claim_C7_equal_dispatch (E : Nat → Nat → Bool) (s t : List Element)
    (hlaw : LawfulOn E (s ++ t)) (hs : SetInv E s) (ht : SetInv E t) :
    (∀ e : Element, (∀ u, e ≠ Element.set u) → Set.Equal E s e = false) ∧
    Set.Equal E s (.set t) = specSetEqual E s t ∧
    (∀ e : Element, (∀ u, e ≠ Element.setM u) → SetM.Equal E s e = false) ∧
    SetM.Equal E s (.setM t)
      = ((s.length == t.length) && SetM.Contains E s t) ∧
    SetM.Equal E s (.setM t) = specSetMEqual E s t := by
  refine ⟨?_, ?_, ?_, ?_, ?_⟩
  · intro e hne
    cases e with
    | base n => simp [Set.Equal, Element.Equal]
    | set u => exact absurd rfl (hne u)
    | setM u => simp [Set.Equal, Element.Equal]
    | null => simp [Set.Equal, Element.Equal]
  · unfold Set.Equal specSetEqual
    rw [Element.Equal_set_set, Set.subsetScan_eq_all]
  · intro e hne
    cases e with
    | base n => simp [SetM.Equal, Element.Equal]
    | set u => simp [SetM.Equal, Element.Equal]
    | setM u => exact absurd rfl (hne u)
    | null => simp [SetM.Equal, Element.Equal]
  · unfold SetM.Equal
    exact Element.Equal_setM_setM E s t
  · unfold SetM.Equal specSetMEqual
    rw [Element.Equal_setM_setM]
    cases hl : (s.length == t.length) with
    | false => simp
    | true =>
      have hlen : s.length = t.length := by simpa using hl
      simp only [Bool.true_and]
      rw [Bool.eq_iff_iff, SetM.Contains_iff, List.all_eq_true]
      have hlaw2 : LawfulOn E (t ++ s) := by
        apply LawfulOn.mono _ hlaw
        intro x hx
        rcases List.mem_append.mp hx with hx | hx
        · exact List.mem_append.mpr (Or.inr hx)
        · exact List.mem_append.mpr (Or.inl hx)
      constructor
      · intro h x hx
        exact subset_swap_of_card_eq E hlen hlaw hs ht h x hx
      · intro h y hy
        have := subset_swap_of_card_eq E hlen.symm hlaw2 ht hs
          (by intro x hx; simpa using h x hx) y hy
        exact this

theorem claim_C7_witness :
    (LawfulOn intEleEq ([Element.base 0] ++ [Element.base 0]) ∧
      SetInv intEleEq [Element.base 0] ∧ SetInv intEleEq [Element.base 0]) ∧
    ((∀ e : Element, (∀ u, e ≠ Element.set u) →
        Set.Equal intEleEq [Element.base 0] e = false) ∧
      Set.Equal intEleEq [Element.base 0] (.set [Element.base 0])
        = specSetEqual intEleEq [Element.base 0] [Element.base 0] ∧
      (∀ e : Element, (∀ u, e ≠ Element.setM u) →
        SetM.Equal intEleEq [Element.base 0] e = false) ∧
      SetM.Equal intEleEq [Element.base 0] (.setM [Element.base 0])
        = (([Element.base 0].length == [Element.base 0].length) &&
            SetM.Contains intEleEq [Element.base 0] [Element.base 0]) ∧
      SetM.Equal intEleEq [Element.base 0] (.setM [Element.base 0])
        = specSetMEqual intEleEq [Element.base 0] [Element.base 0]) := by
  have hlaw : LawfulOn intEleEq ([Element.base 0] ++ [Element.base 0]) :=
    lawfulOn_intEleEq _ (by
      intro x hx
      rcases List.mem_append.mp hx with hx | hx <;> simp at hx <;>
        exact ⟨_, hx⟩)
  have hinv : SetInv intEleEq [Element.base 0] := by
    simp [SetInv]
  exact ⟨⟨hlaw, hinv, hinv⟩,
    claim_C7_equal_dispatch intEleEq [Element.base 0] [Element.base 0]
      hlaw hinv hinv⟩

/-! ### Claim C9: backing-array allocation on add (corrected)

Go slices are views into heap-allocated backing arrays.  `GoHeap` is the
collection of allocated arrays; a `GoSlice` is an array id, an offset, a
length and a capacity, and its observable elements are the `len` elements
starting at `off`.  `append` writes in place when spare capacity remains
(`cap > len`) and only otherwise allocates a fresh array — this is the
aliasing hazard the spec describes.  `SetM.Add` sidesteps `append` with
`make`/`copy`, always allocating; `Set.AddElement` uses plain `append`. -/

structure GoSlice : Type where
  arr : Nat
  off : Nat
  len : Nat
  cap : Nat

structure GoHeap : Type where
  arrays : List (List Element)

/-- The observable elements of a slice: `len` elements starting at `off` in
its backing array. -/
def observe (h : GoHeap) (s : GoSlice) : List Element :=
  ((h.arrays.getD s.arr []).drop s.off).take s.len

/-- Go `append(s, e)` for one element: write in place into the spare
capacity when there is any, else allocate a fresh backing array (an exact
fit here; the growth factor of the real runtime is implementation-defined
and irrelevant to the theorems below). -/
def goAppend (h : GoHeap) (s : GoSlice) (e : Element) : GoHeap × GoSlice :=
  if s.len < s.cap then
    (⟨h.arrays.set s.arr
        ((h.arrays.getD s.arr []).set (s.off + s.len) e)⟩,
     ⟨s.arr, s.off, s.len + 1, s.cap⟩)
  else
    (⟨h.arrays ++ [observe h s ++ [e]]⟩,
     ⟨h.arrays.length, 0, s.len + 1, s.len + 1⟩)

/-- `Set.AddElement` from `set.go` on the slice model: no-op when the
element is present, otherwise `*p = append(*p, e)`. -/
def Set.AddElementH (E : Nat → Nat → Bool) (h : GoHeap) (p : GoSlice)
    (e : Element) : GoHeap × GoSlice :=
  if Set.HasElement E (observe h p) e then (h, p) else goAppend h p e

/-- `SetM.Add` from `setm.go` on the slice model: no-op when present,
otherwise `s2 := make(SetM, len(s1)+1); copy(s2, s1); s2[len(s1)] = e` — a
fresh backing array is always allocated. -/
def SetM.AddH (E : Nat → Nat → Bool) (h : GoHeap) (p : GoSlice)
    (e : Element) : (GoHeap × GoSlice) × Bool :=
  if SetM.HasElement E (observe h p) e then ((h, p), false)
  else ((⟨h.arrays ++ [observe h p ++ [e]]⟩,
         ⟨h.arrays.length, 0, p.len + 1, p.len + 1⟩), true)

/-- The heap of the counterexample: one backing array `{1, 2, 3}`. -/
def heap0 : GoHeap := ⟨[[Element.base 1, Element.base 2, Element.base 3]]⟩

/-- A three-element `Set` variable viewing all of the backing array. -/
def bSlice : GoSlice := ⟨0, 0, 3, 3⟩

/-- A two-element `Set` variable sharing the same backing array (for
example `b[:2]` for the slice `b` above). -/
def sSlice : GoSlice := ⟨0, 0, 2, 3⟩

/-- C9 counterexample: `Set.AddElement` does not always allocate a fresh
backing sequence.  With `b = Set{1,2,3}` and `s = b[:2]` sharing `b`'s
backing array, `s.AddElement(4)` appends in place into the spare capacity
and changes the observable elements of `b` from `{1,2,3}` to `{1,2,4}`. -/
theorem claim_C9_counterexample :
    observe (Set.AddElementH intEleEq heap0 sSlice (.base 4)).1 bSlice
      ≠ observe heap0 bSlice := by
  simp [Set.AddElementH, goAppend, observe, heap0, sSlice, bSlice,
    Set.HasElement, Element.Equal, intEleEq]

/-- A freshly appended backing array leaves the view of every pre-existing
slice unchanged. -/
theorem observe_append_array (h : GoHeap) (a : List Element) (t : GoSlice)
    (ht : t.arr < h.arrays.length) :
    observe ⟨h.arrays ++ [a]⟩ t = observe h t := by
  unfold observe
  simp only
  rw [List.getD_append _ _ _ _ ht]

/-- C9 (amended): `SetM.Add` always allocates a fresh backing array when it
adds, so adding to a `SetM` never changes the observable elements of any
other slice into the existing heap; `Set.AddElement`, by contrast, appends
in place whenever spare capacity remains and can change the observable
elements of a longer set sharing its backing array (see the
counterexample). -/
theorem claim_C9_add_allocates (E : Nat → Nat → Bool) (h : GoHeap)
    (p : GoSlice) (e : Element) (t : GoSlice)
    (ht : t.arr < h.arrays.length) :
    observe (SetM.AddH E h p e).1.1 t = observe h t ∧
    ((SetM.AddH E h p e).2 = true →
      (SetM.AddH E h p e).1.2.arr = h.arrays.length) := by
  unfold SetM.AddH
  cases hhas : SetM.HasElement E (observe h p) e with
  | true => simp
  | false =>
    simp only [Bool.false_eq_true, if_false]
    exact ⟨observe_append_array h _ t ht, fun _ => trivial⟩

theorem claim_C9_witness :
    bSlice.arr < heap0.arrays.length ∧
    (observe (SetM.AddH intEleEq heap0 sSlice (.base 4)).1.1 bSlice
        = observe heap0 bSlice ∧
      ((SetM.AddH intEleEq heap0 sSlice (.base 4)).2 = true →
        (SetM.AddH intEleEq heap0 sSlice (.base 4)).1.2.arr
          = heap0.arrays.length)) :=
  ⟨by simp [bSlice, heap0],
   claim_C9_add_allocates intEleEq heap0 sSlice (.base 4) bSlice
     (by simp [bSlice, heap0])⟩
